import Mathlib

/-!
Verification of the Module_03_Resilient_Software demonstration programs
(`thread_safe.rs`, `buffer_safe.rs`, `option_safe.rs`, `memory_safe.rs`)
against their natural-language specification.

Machine integers (`i32`) are modelled as `Int` with explicit reduction into
the 32-bit two's-complement range where the source performs wrapping
arithmetic (`AtomicI32::fetch_add` wraps on overflow), and with an explicit
failure (`Option`) where the source performs checked arithmetic
(plain `+=` on `i32`, which aborts on overflow in the default build profile).
-/

/-- Two's-complement reduction into the `i32` range, as performed by
`AtomicI32::fetch_add` on overflow. -/
def wrap32 (n : Int) : Int := (n + 2 ^ 31) % 2 ^ 32 - 2 ^ 31

/-- The `i32` range. -/
def inI32 (n : Int) : Prop := -(2 ^ 31) ≤ n ∧ n < 2 ^ 31

instance (n : Int) : Decidable (inI32 n) := by unfold inI32; infer_instance

theorem wrap32_eq_self {n : Int} (h : inI32 n) : wrap32 n = n := by
  obtain ⟨h1, h2⟩ := h
  unfold wrap32
  have hlo : (0 : Int) ≤ n + 2 ^ 31 := by omega
  have hhi : n + 2 ^ 31 < 2 ^ 32 := by omega
  rw [Int.emod_eq_of_lt hlo hhi]
  omega

theorem wrap32_add_one (n : Int) : wrap32 (wrap32 n + 1) = wrap32 (n + 1) := by
  unfold wrap32
  have h : (n + 2 ^ 31) % 2 ^ 32 - 2 ^ 31 + 1 + 2 ^ 31 = (n + 2 ^ 31) % 2 ^ 32 + 1 := by ring
  rw [h]
  have h2 : (n + 2 ^ 31) % 2 ^ 32 + 1 = ((n + 2 ^ 31) % 2 ^ 32 + 1 % 2 ^ 32) := by norm_num
  conv_lhs => rw [h2, ← Int.add_emod]
  ring_nf

/-! ### `SafeCounter` (thread_safe.rs, lines 14-34)

`count` is an `AtomicI32`; `increment` is `fetch_add(1, SeqCst)` (wraps on
overflow); `get_count` is a `SeqCst` load. -/

structure SafeCounter where
  count : Int
deriving DecidableEq

def SafeCounter.new : SafeCounter := ⟨0⟩

def SafeCounter.increment (c : SafeCounter) : SafeCounter :=
  ⟨wrap32 (c.count + 1)⟩

def SafeCounter.get_count (c : SafeCounter) : Int := c.count

/-- A schedule is the global interleaving of the threads' increment events,
each event tagged with the id of the thread that performed it.  Every
increment is a single atomic step, so executing a schedule applies
`increment` once per event. -/
def runSchedule (c : SafeCounter) : List Nat → SafeCounter
  | [] => c
  | _ :: es => runSchedule c.increment es

/-- The work performed in `demonstrate_counter_safety`: `N` threads, each
executing `K` increments.  A valid interleaving of the threads' events is
any permutation of this list that preserves each thread's own order; every
such interleaving is in particular a permutation of `workList N K`. -/
def workList (N K : Nat) : List Nat :=
  (List.range N).flatMap fun t => List.replicate K t

theorem runSchedule_wrap (s : List Nat) :
    ∀ a : Int, (runSchedule ⟨wrap32 a⟩ s).count = wrap32 (a + s.length) := by
  induction s with
  | nil => intro a; simp [runSchedule]
  | cons e es ih =>
      intro a
      show (runSchedule (SafeCounter.increment ⟨wrap32 a⟩) es).count = _
      have h1 : SafeCounter.increment ⟨wrap32 a⟩ = ⟨wrap32 (a + 1)⟩ := by
        simp [SafeCounter.increment, wrap32_add_one]
      have h2 : a + 1 + (es.length : Int) = a + ((e :: es).length : Int) := by
        push_cast [List.length_cons]
        ring
      rw [h1, ih (a + 1), h2]

theorem runSchedule_new (s : List Nat) :
    (runSchedule SafeCounter.new s).get_count = wrap32 s.length := by
  have h0 : SafeCounter.new = ⟨wrap32 0⟩ := by
    simp [SafeCounter.new]
    norm_num [wrap32]
  rw [h0]
  have := runSchedule_wrap s 0
  simpa [SafeCounter.get_count] using this

theorem length_workList (N K : Nat) : (workList N K).length = N * K := by
  induction N with
  | zero => simp [workList]
  | succ n ih =>
      unfold workList at ih ⊢
      rw [List.range_succ, List.flatMap_append]
      simp [ih, Nat.succ_mul]

/-- Claim C1, counterexample: the claim asserts the final count equals N×K
exactly for any N,K ≥ 0, but `count` is an `AtomicI32` and `fetch_add`
wraps on overflow.  With N = 2 threads and K = 2^30 increments per thread
(both represent fine as `i32`), the total 2^31 wraps to -2^31. -/
theorem counter_overflow_cex :
    (runSchedule SafeCounter.new (workList 2 (2 ^ 30))).get_count ≠
      ((2 * 2 ^ 30 : Nat) : Int) := by
  rw [runSchedule_new, length_workList]
  norm_num [wrap32]

/-- Claim C1 (amended): for every N worker threads each performing K atomic
increments on a `SafeCounter` initialized to 0, and every interleaving of
their 1-increment events (any permutation of the N×K events), the final
`get_count` is N×K reduced into the `i32` range; it equals N×K exactly
whenever N×K < 2^31 — in particular the concrete run with N = 10 and
K = 1000 ends at exactly 10000. -/
theorem counter_exact (N K : Nat) (s : List Nat)
    (hs : s.Perm (workList N K)) (hb : (N * K : Int) < 2 ^ 31) :
    (runSchedule SafeCounter.new s).get_count = (N * K : Nat) := by
  rw [runSchedule_new, hs.length_eq, length_workList]
  refine wrap32_eq_self ⟨?_, hb⟩
  have h := Int.natCast_nonneg (N * K)
  omega

/-- Claim C1, witness: the concrete schedule of `demonstrate_counter_safety`
(10 threads × 1000 increments) ends at exactly 10000. -/
theorem counter_exact_witness :
    (runSchedule SafeCounter.new (workList 10 1000)).get_count = 10000 := by
  have h := counter_exact 10 1000 (workList 10 1000) (List.Perm.refl _)
    (by norm_num)
  simpa using h

/-! ### `SharedData` (thread_safe.rs, lines 36-68)

`data : Vec<i32>`, `sum : i32`, `processing : bool`.  `add_value` pushes the
value, does `sum += value` (checked `i32` addition: the program aborts on
overflow in the default build profile, modelled as `none`), and negates the
flag.  `print_stats` observes the triple (length, sum, flag) while holding
the mutex, i.e. between two `add_value` calls. -/

structure SharedData where
  data : List Int
  sum : Int
  processing : Bool
deriving DecidableEq

def SharedData.new : SharedData := ⟨[], 0, false⟩

def SharedData.add_value (s : SharedData) (value : Int) : Option SharedData :=
  if inI32 (s.sum + value) then
    some ⟨s.data ++ [value], s.sum + value, !s.processing⟩
  else
    none

def SharedData.print_stats (s : SharedData) : Nat × Int × Bool :=
  (s.data.length, s.sum, s.processing)

/-- The writer thread's loop: perform the `add_value` calls in order
(each one under exclusive mutex acquisition). -/
def runAdds (s : SharedData) : List Int → Option SharedData
  | [] => some s
  | v :: vs =>
    match s.add_value v with
    | some s2 => runAdds s2 vs
    | none => none

theorem parity_flip (n : Nat) :
    (!decide (n % 2 = 1)) = decide ((n + 1) % 2 = 1) := by
  rcases Nat.even_or_odd n with h | h
  · have h0 : n % 2 = 0 := Nat.even_iff.mp h
    have h1 : (n + 1) % 2 = 1 := by omega
    simp [h0, h1]
  · have h0 : n % 2 = 1 := Nat.odd_iff.mp h
    have h1 : (n + 1) % 2 = 0 := by omega
    simp [h0, h1]

theorem runAdds_inv (vs : List Int) :
    ∀ s0 s : SharedData, runAdds s0 vs = some s →
      s0.sum = s0.data.sum →
      s0.processing = decide (s0.data.length % 2 = 1) →
      s.sum = s.data.sum ∧
        s.processing = decide (s.data.length % 2 = 1) ∧
        s.data.length = s0.data.length + vs.length := by
  induction vs with
  | nil =>
      intro s0 s h h1 h2
      simp only [runAdds, Option.some.injEq] at h
      subst h
      exact ⟨h1, h2, by simp⟩
  | cons v vs ih =>
      intro s0 s h h1 h2
      simp only [runAdds] at h
      rcases hadd : s0.add_value v with _ | s1
      · rw [hadd] at h; exact absurd h (by simp)
      · rw [hadd] at h
        unfold SharedData.add_value at hadd
        split at hadd
        · rw [Option.some.injEq] at hadd
          subst hadd
          have h1' : s0.sum + v = (s0.data ++ [v]).sum := by
            rw [List.sum_append, List.sum_cons, List.sum_nil, h1]
            ring
          have h2' : (!s0.processing) =
              decide ((s0.data ++ [v]).length % 2 = 1) := by
            rw [h2, List.length_append, List.length_singleton, parity_flip]
          obtain ⟨g1, g2, g3⟩ := ih _ s h h1' h2'
          refine ⟨g1, g2, ?_⟩
          rw [g3]
          simp
          omega
        · exact absurd hadd (by simp)

/-- Claim C2: every `SharedData` state reachable from `SharedData::new` by a
finite sequence of `add_value` calls has its `sum` field equal to the sum of
the `data` list and its `processing` flag equal to the parity (odd = true)
of the number of calls, which equals the list length; hence any
`print_stats` observation taken between calls shows a triple
(length, sum, flag) consistent with exactly that many update steps. -/
theorem shared_data_consistent (vs : List Int) (s : SharedData)
    (h : runAdds SharedData.new vs = some s) :
    s.sum = s.data.sum ∧
      s.processing = decide (s.data.length % 2 = 1) ∧
      s.data.length = vs.length ∧
      s.print_stats =
        (vs.length, s.data.sum, decide (vs.length % 2 = 1)) := by
  obtain ⟨g1, g2, g3⟩ := runAdds_inv vs SharedData.new s h rfl rfl
  simp only [SharedData.new, List.length_nil, Nat.zero_add] at g3
  refine ⟨g1, g2, g3, ?_⟩
  unfold SharedData.print_stats
  rw [g1, g2, g3]

/-- Claim C2, witness: the writer's concrete sequence (adding 0..9 as in
`demonstrate_mutex_safety`) reaches the state with data [0,...,9], sum 45
and flag false, and the invariant holds there. -/
theorem shared_data_consistent_witness :
    (SharedData.mk [0, 1, 2, 3, 4, 5, 6, 7, 8, 9] 45 false).sum =
        (SharedData.mk [0, 1, 2, 3, 4, 5, 6, 7, 8, 9] 45 false).data.sum ∧
      (SharedData.mk [0, 1, 2, 3, 4, 5, 6, 7, 8, 9] 45 false).processing =
        decide ((SharedData.mk [0, 1, 2, 3, 4, 5, 6, 7, 8, 9] 45
          false).data.length % 2 = 1) ∧
      (SharedData.mk [0, 1, 2, 3, 4, 5, 6, 7, 8, 9] 45 false).data.length =
        ([0, 1, 2, 3, 4, 5, 6, 7, 8, 9] : List Int).length ∧
      (SharedData.mk [0, 1, 2, 3, 4, 5, 6, 7, 8, 9] 45 false).print_stats =
        (([0, 1, 2, 3, 4, 5, 6, 7, 8, 9] : List Int).length,
          (SharedData.mk [0, 1, 2, 3, 4, 5, 6, 7, 8, 9] 45 false).data.sum,
          decide (([0, 1, 2, 3, 4, 5, 6, 7, 8, 9] : List Int).length % 2
            = 1)) :=
  shared_data_consistent [0, 1, 2, 3, 4, 5, 6, 7, 8, 9]
    (SharedData.mk [0, 1, 2, 3, 4, 5, 6, 7, 8, 9] 45 false) (by decide)

/-! ### Channel message passing (thread_safe.rs, lines 220-246)

`demonstrate_channel_safety`: a producer thread sends "Message 0" through
"Message 4" on an `mpsc::channel` and then drops the sender; a consumer
thread loops on `recv()`, which yields each message in send order and
returns `Err` exactly when the queue is empty and every sender has been
dropped, upon which the consumer prints "All messages received".  The
channel is modelled as a FIFO queue; an execution is any interleaving of
the producer's steps (send the next message, drop the sender) and the
consumer's steps (receive the head, detect closure). -/

structure ChanState where
  toSend : List String
  queue : List String
  closed : Bool
  received : List String
  done : Bool
deriving DecidableEq

inductive ChanAct where
  | send
  | close
  | recv
  | finish
deriving DecidableEq

def chanStep : ChanAct → ChanState → Option ChanState
  | .send, s =>
    match s.toSend with
    | m :: rest => some { s with toSend := rest, queue := s.queue ++ [m] }
    | [] => none
  | .close, s =>
    match s.toSend with
    | [] => if s.closed then none else some { s with closed := true }
    | _ :: _ => none
  | .recv, s =>
    match s.queue with
    | m :: rest => some { s with queue := rest, received := s.received ++ [m] }
    | [] => none
  | .finish, s =>
    if s.closed = true ∧ s.queue = [] ∧ s.done = false then
      some { s with done := true }
    else
      none

def runChan : List ChanAct → ChanState → Option ChanState
  | [], s => some s
  | a :: acts, s =>
    match chanStep a s with
    | some s2 => runChan acts s2
    | none => none

def chanInit (msgs : List String) : ChanState := ⟨msgs, [], false, [], false⟩

/-- The channel-system invariant: no message is lost, duplicated or
reordered; the sender only closes after sending everything; the consumer
only finishes after closure with an empty queue. -/
def ChanInv (msgs : List String) (s : ChanState) : Prop :=
  s.received ++ s.queue ++ s.toSend = msgs ∧
    (s.closed = true → s.toSend = []) ∧
    (s.done = true → s.closed = true ∧ s.queue = [])

theorem chanStep_inv {msgs : List String} {a : ChanAct} {s s2 : ChanState}
    (h : chanStep a s = some s2) (hinv : ChanInv msgs s) : ChanInv msgs s2 := by
  obtain ⟨h1, h2, h3⟩ := hinv
  cases a with
  | send =>
      rcases hts : s.toSend with _ | ⟨m, rest⟩
      · simp [chanStep, hts] at h
      · simp only [chanStep, hts, Option.some.injEq] at h
        subst h
        refine ⟨?_, ?_, ?_⟩
        · show s.received ++ (s.queue ++ [m]) ++ rest = msgs
          rw [← h1, hts]
          simp
        · intro hc
          have hx := h2 hc
          rw [hts] at hx
          exact absurd hx (by simp)
        · intro hd
          have hx := h2 (h3 hd).1
          rw [hts] at hx
          exact absurd hx (by simp)
  | close =>
      rcases hts : s.toSend with _ | ⟨m, rest⟩
      · simp only [chanStep, hts] at h
        split at h
        · exact absurd h (by simp)
        · rw [Option.some.injEq] at h
          subst h
          refine ⟨?_, fun _ => rfl, fun hd => ⟨rfl, (h3 hd).2⟩⟩
          show s.received ++ s.queue ++ [] = msgs
          rw [hts] at h1
          simpa using h1
      · simp [chanStep, hts] at h
  | recv =>
      rcases hq : s.queue with _ | ⟨m, rest⟩
      · simp [chanStep, hq] at h
      · simp only [chanStep, hq, Option.some.injEq] at h
        subst h
        refine ⟨?_, h2, ?_⟩
        · show s.received ++ [m] ++ rest ++ s.toSend = msgs
          rw [← h1, hq]
          simp
        · intro hd
          have hx := (h3 hd).2
          rw [hq] at hx
          exact absurd hx (by simp)
  | finish =>
      simp only [chanStep] at h
      split at h
      · rename_i hcond
        rw [Option.some.injEq] at h
        subst h
        exact ⟨h1, h2, fun _ => ⟨hcond.1, hcond.2.1⟩⟩
      · exact absurd h (by simp)

theorem runChan_inv (acts : List ChanAct) :
    ∀ s0 s : ChanState, runChan acts s0 = some s →
      ∀ msgs, ChanInv msgs s0 → ChanInv msgs s := by
  induction acts with
  | nil =>
      intro s0 s h msgs hinv
      simp only [runChan, Option.some.injEq] at h
      exact h ▸ hinv
  | cons a acts ih =>
      intro s0 s h msgs hinv
      simp only [runChan] at h
      rcases hstep : chanStep a s0 with _ | s1
      · rw [hstep] at h; exact absurd h (by simp)
      · rw [hstep] at h
        exact ih s1 s h msgs (chanStep_inv hstep hinv)

/-- Claim C3: for every sequence `msgs` of messages handed to the producer,
and every interleaved execution of producer and consumer steps, once the
consumer has finished (it saw `recv` fail after the sender was dropped with
the queue drained — closure as end-of-messages, not an error), the consumer
has received exactly `msgs`, in send order. -/
theorem channel_fifo (msgs : List String) (acts : List ChanAct)
    (s : ChanState) (h : runChan acts (chanInit msgs) = some s)
    (hdone : s.done = true) : s.received = msgs := by
  have hinv0 : ChanInv msgs (chanInit msgs) := by
    refine ⟨by simp [chanInit], by simp [chanInit], by simp [chanInit]⟩
  obtain ⟨h1, h2, h3⟩ := runChan_inv acts (chanInit msgs) s h msgs hinv0
  obtain ⟨hc, hq⟩ := h3 hdone
  rw [← h1, hq, h2 hc]
  simp

/-- The messages of the concrete run: "Message 0" .. "Message 4". -/
def demoMsgs : List String :=
  (List.range 5).map fun i => "Message " ++ toString i

/-- The concrete interleaving in which the producer first sends all five
messages and drops the sender, then the consumer drains the queue and
detects closure.  (The theorem covers every other interleaving too.) -/
def demoActs : List ChanAct :=
  [.send, .send, .send, .send, .send, .close,
   .recv, .recv, .recv, .recv, .recv, .finish]

/-- Claim C3, witness: running the concrete interleaving of
`demonstrate_channel_safety` reaches a finished state whose received list
is exactly "Message 0" .. "Message 4", in that order. -/
theorem channel_fifo_witness :
    runChan demoActs (chanInit demoMsgs) =
      some ⟨[], [], true,
        ["Message 0", "Message 1", "Message 2", "Message 3", "Message 4"],
        true⟩ ∧
      (ChanState.mk [] [] true
        ["Message 0", "Message 1", "Message 2", "Message 3", "Message 4"]
        true).received = demoMsgs :=
  ⟨by decide, channel_fifo demoMsgs demoActs
    (ChanState.mk [] [] true
      ["Message 0", "Message 1", "Message 2", "Message 3", "Message 4"]
      true) (by decide) (by decide)⟩

/-! ### Bounds-checked access (buffer_safe.rs, lines 35-62)

`array_bounds_safety` builds `arr = [1, 2, 3, 4, 5]` and uses `arr.get(i)`,
which returns `Some(&arr[i])` when `i < arr.len()` and `None` otherwise,
without reading outside the array. -/

def arrGet {α : Type} : List α → Nat → Option α
  | [], _ => none
  | x :: _, 0 => some x
  | _ :: xs, Nat.succ i => arrGet xs i

def demoArr : List Int := [1, 2, 3, 4, 5]

theorem arrGet_lt {α : Type} :
    ∀ (xs : List α) (i : Nat) (h : i < xs.length),
      arrGet xs i = some (xs.get ⟨i, h⟩) := by
  intro xs
  induction xs with
  | nil => intro i h; exact absurd h (by simp)
  | cons x xs ih =>
      intro i h
      cases i with
      | zero => rfl
      | succ j => exact ih j (by simpa using h)

theorem arrGet_ge {α : Type} :
    ∀ (xs : List α) (i : Nat), xs.length ≤ i → arrGet xs i = none := by
  intro xs
  induction xs with
  | nil => intro i _; rfl
  | cons x xs ih =>
      intro i h
      cases i with
      | zero => exact absurd h (by simp)
      | succ j => exact ih j (by simpa using h)

/-- Claim C4: for every container and index `i`, `get`-style access returns
the element at position `i` when `i` is within the length and `none` when it
is at or beyond the length (it never touches anything outside the list);
concretely, for the 5-element array of `array_bounds_safety`, `arr.get(4)`
is `some 5` and `arr.get(10)` is `none`. -/
theorem get_bounds_safe :
    (∀ (xs : List Int) (i : Nat) (h : i < xs.length),
        arrGet xs i = some (xs.get ⟨i, h⟩)) ∧
      (∀ (xs : List Int) (i : Nat), xs.length ≤ i → arrGet xs i = none) ∧
      arrGet demoArr 4 = some 5 ∧
      arrGet demoArr 10 = none :=
  ⟨fun xs i h => arrGet_lt xs i h,
   fun xs i h => arrGet_ge xs i h,
   by decide, by decide⟩

/-- Claim C4, witness: the two concrete accesses of `array_bounds_safety`.
`arr.get(4)` yields the element at index 4 (the value 5) and `arr.get(10)`
yields `none`. -/
theorem get_bounds_safe_witness :
    arrGet demoArr 4 = some 5 ∧ arrGet demoArr 10 = none :=
  ⟨by have h := get_bounds_safe.1 demoArr 4 (by decide); simpa [demoArr] using h,
   get_bounds_safe.2.1 demoArr 10 (by decide)⟩

/-! ### `Resource` and fallible lookup (option_safe.rs, lines 9-72)

`find_resource_by_id` is `resources.iter().find(|res| res.id == target_id)`:
it returns the first element with the given id, or `None`.
`demonstrate_option_safety` searches the list [Database(1), FileSystem(2),
Network(3)] and, in the `None` branch of the id-999 search, only prints a
fixed message — it touches no resource fields. -/

structure Resource where
  id : Int
  name : String
deriving DecidableEq

def find_resource_by_id : List Resource → Int → Option Resource
  | [], _ => none
  | r :: rest, target_id =>
    if r.id = target_id then some r else find_resource_by_id rest target_id

def demoResources : List Resource :=
  [⟨1, "Database"⟩, ⟨2, "FileSystem"⟩, ⟨3, "Network"⟩]

/-- The second `match` of `demonstrate_option_safety` (the id-999 search):
the `Some` branch calls `resource.process()` (which reads the `name` and
`id` fields); the `None` branch prints a fixed message only. -/
def searchOutcome : Option Resource → List String
  | some res =>
    ["Processing resource: " ++ res.name ++ " (id: " ++ toString res.id ++ ")"]
  | none => ["Resource 999 not found - safely handled!"]

theorem find_mem :
    ∀ (rs : List Resource) (t : Int) (r : Resource),
      find_resource_by_id rs t = some r → r ∈ rs ∧ r.id = t := by
  intro rs
  induction rs with
  | nil => intro t r h; exact absurd h (by simp [find_resource_by_id])
  | cons x xs ih =>
      intro t r h
      unfold find_resource_by_id at h
      split at h
      · rw [Option.some.injEq] at h
        subst h
        exact ⟨List.mem_cons_self x xs, by assumption⟩
      · obtain ⟨hm, hi⟩ := ih t r h
        exact ⟨List.mem_cons_of_mem x hm, hi⟩

theorem find_none_iff :
    ∀ (rs : List Resource) (t : Int),
      find_resource_by_id rs t = none ↔ ∀ r ∈ rs, r.id ≠ t := by
  intro rs
  induction rs with
  | nil => intro t; simp [find_resource_by_id]
  | cons x xs ih =>
      intro t
      unfold find_resource_by_id
      split
      · constructor
        · intro h; exact absurd h (by simp)
        · intro h
          exact absurd (by assumption) (h x (List.mem_cons_self x xs))
      · rw [ih t]
        constructor
        · intro h r hr
          rcases List.mem_cons.mp hr with he | hm
          · subst he; assumption
          · exact h r hm
        · intro h r hr
          exact h r (List.mem_cons_of_mem x hr)

/-- Claim C5: `find_resource_by_id` returns a present result holding a
resource of the target id exactly when some element of the list has that
id, and an absent result otherwise; concretely, searching the 3-element
demo list for id 999 is absent, and the caller's absence branch only prints
a fixed message (no resource field is read). -/
theorem find_resource_spec :
    (∀ (rs : List Resource) (t : Int),
        (∃ r, find_resource_by_id rs t = some r ∧ r.id = t) ↔
          ∃ r ∈ rs, r.id = t) ∧
      (∀ (rs : List Resource) (t : Int),
        find_resource_by_id rs t = none ↔ ∀ r ∈ rs, r.id ≠ t) ∧
      find_resource_by_id demoResources 999 = none ∧
      searchOutcome (find_resource_by_id demoResources 999) =
        ["Resource 999 not found - safely handled!"] := by
  refine ⟨?_, find_none_iff, by decide, by decide⟩
  intro rs t
  constructor
  · rintro ⟨r, hfind, hid⟩
    obtain ⟨hm, _⟩ := find_mem rs t r hfind
    exact ⟨r, hm, hid⟩
  · rintro ⟨r, hm, hid⟩
    rcases hf : find_resource_by_id rs t with _ | r2
    · exact absurd hid ((find_none_iff rs t).mp hf r hm)
    · exact ⟨r2, rfl, (find_mem rs t r2 hf).2⟩

/-- Claim C5, witness: the concrete id-999 search over the demo list is
absent and the absence branch produces exactly the fixed message. -/
theorem find_resource_spec_witness :
    find_resource_by_id demoResources 999 = none ∧
      searchOutcome (find_resource_by_id demoResources 999) =
        ["Resource 999 not found - safely handled!"] := by
  refine ⟨(find_resource_spec.2.1 demoResources 999).mpr ?_, ?_⟩
  · decide
  · rw [(find_resource_spec.2.1 demoResources 999).mpr (by decide)]
    rfl

/-! ### `try_create_resource` (option_safe.rs, lines 117-151)

Checks `id <= 0` first, then `name.is_empty()`, and only in the success
case calls `Resource::new`, which prints the creation narration.  The model
returns the `Result` together with the narration lines emitted. -/

def try_create_resource (id : Int) (name : String) :
    Except String Resource × List String :=
  if id ≤ 0 then
    (.error "Invalid ID: must be positive", [])
  else if name = "" then
    (.error "Invalid name: cannot be empty", [])
  else
    (.ok ⟨id, name⟩,
      ["Created Resource: " ++ name ++ " (id: " ++ toString id ++ ")"])

def isErr {ε α : Type} : Except ε α → Bool
  | .error _ => true
  | .ok _ => false

/-- Claim C6: `try_create_resource(id, name)` returns an explicit failure
(an `Err` with a diagnostic string) exactly when `id ≤ 0` or `name` is
empty; otherwise it returns `Ok` with a `Resource` whose fields are exactly
the given arguments; and on the failure path no `Resource` is constructed,
so no creation narration is emitted. -/
theorem try_create_spec :
    ∀ (id : Int) (name : String),
      (isErr (try_create_resource id name).1 = true ↔ id ≤ 0 ∨ name = "") ∧
        (¬(id ≤ 0 ∨ name = "") →
          (try_create_resource id name).1 = .ok ⟨id, name⟩) ∧
        (isErr (try_create_resource id name).1 = true →
          (try_create_resource id name).2 = []) := by
  intro id name
  unfold try_create_resource
  by_cases h1 : id ≤ 0
  · simp [h1, isErr]
  · by_cases h2 : name = ""
    · simp [h1, h2, isErr]
    · simp [h1, h2, isErr]

/-- Claim C6, witness: the two concrete calls of
`demonstrate_result_safety`: (5, "ValidResource") succeeds with exactly
those fields, and (-1, "InvalidResource") is an error with no narration. -/
theorem try_create_spec_witness :
    (try_create_resource 5 "ValidResource").1 =
        .ok ⟨5, "ValidResource"⟩ ∧
      isErr (try_create_resource (-1) "InvalidResource").1 = true ∧
      (try_create_resource (-1) "InvalidResource").2 = [] :=
  ⟨(try_create_spec 5 "ValidResource").2.1 (by decide),
   (try_create_spec (-1) "InvalidResource").1.mpr (Or.inl (by norm_num)),
   (try_create_spec (-1) "InvalidResource").2.2
     ((try_create_spec (-1) "InvalidResource").1.mpr
       (Or.inl (by norm_num)))⟩

/-- Claim C10: the ID check comes first: for every `id ≤ 0` and every
`name` — the empty name included — `try_create_resource` returns the
invalid-ID error; the empty-name error can only arise when `id > 0`;
concretely `try_create_resource(0, "")` yields the invalid-ID error. -/
theorem id_check_first :
    ∀ (id : Int) (name : String),
      (id ≤ 0 →
        (try_create_resource id name).1 =
          .error "Invalid ID: must be positive") ∧
        ((try_create_resource id name).1 =
            .error "Invalid name: cannot be empty" → 0 < id ∧ name = "") ∧
        (try_create_resource 0 "").1 =
          .error "Invalid ID: must be positive" := by
  intro id name
  refine ⟨?_, ?_, rfl⟩
  · intro h
    simp [try_create_resource, h]
  · intro h
    unfold try_create_resource at h
    by_cases h1 : id ≤ 0
    · simp [h1] at h
    · by_cases h2 : name = ""
      · exact ⟨by omega, h2⟩
      · simp [h1, h2] at h

/-- Claim C10, witness: the concrete call with both arguments invalid,
`try_create_resource(0, "")`, yields the invalid-ID error, not the
empty-name error. -/
theorem id_check_first_witness :
    (try_create_resource 0 "").1 = .error "Invalid ID: must be positive" :=
  (id_check_first 0 "").1 (by norm_num)

/-! ### Clamped slicing (buffer_safe.rs, lines 64-83)

`slice_safety` computes `end_index = min(e, data.len())` and evaluates
`&data[s..end_index]`.  In Rust, `&data[s..e2]` yields the elements at
positions `s..e2-1` when `s ≤ e2 ≤ len`, and fails (panics with a
slice-index diagnostic) when `s > e2`; since `e2 = min(e, len) ≤ len`, only
the `s ≤ e2` condition matters.  The failure is modelled as `none`. -/

def clampedSlice (data : List Int) (s e : Nat) : Option (List Int) :=
  let end_index := min e data.length
  if s ≤ end_index then
    some ((data.drop s).take (end_index - s))
  else
    none

def sliceData : List Int := [1, 2, 3, 4, 5, 6, 7, 8, 9, 10]

/-- Claim C7, counterexample: the claim asserts that for every start
`s ≤ n` and every requested end `e` the clamped access returns the
subrange without failure, but when `e < s` the clamped end
`min(e, n)` falls below `s` and `&data[s..min(e, n)]` is an invalid range
(a panic in Rust): with the 10-element data of `slice_safety`, `s = 2` and
`e = 1` fail even though `2 ≤ 10`. -/
theorem slice_cex :
    2 ≤ sliceData.length ∧ clampedSlice sliceData 2 1 = none := by
  decide

/-- Claim C7 (amended): whenever `s ≤ min(e, n)` — which the concrete call
of `slice_safety` (n = 10, s = 2, e = 20) satisfies — the clamped subrange
access succeeds and returns exactly the elements at positions `s` through
`min(e, n) - 1`; for `s > min(e, n)` (possible when `e < s ≤ n`) the range
is invalid and the access fails. -/
theorem clamped_slice_spec (xs : List Int) (s e : Nat)
    (h : s ≤ min e xs.length) :
    clampedSlice xs s e ≠ none ∧
      ((clampedSlice xs s e).getD []).length = min e xs.length - s ∧
      ∀ i, i < min e xs.length - s →
        ((clampedSlice xs s e).getD []).get? i = xs.get? (s + i) := by
  have hval : clampedSlice xs s e =
      some ((xs.drop s).take (min e xs.length - s)) := by
    unfold clampedSlice
    simp [h]
  refine ⟨by rw [hval]; simp, ?_, ?_⟩
  · rw [hval]
    simp only [Option.getD_some, List.length_take, List.length_drop]
    omega
  · intro i hi
    rw [hval]
    simp only [Option.getD_some]
    rw [List.get?_take hi, List.get?_drop]

/-- Claim C7, witness: the concrete call of `slice_safety` (n = 10, s = 2,
e = 20) succeeds, has the clamped length 8, and starts and ends with the
elements at indices 2 and 9 of the data. -/
theorem clamped_slice_spec_witness :
    clampedSlice sliceData 2 20 ≠ none ∧
      ((clampedSlice sliceData 2 20).getD []).length =
        min 20 sliceData.length - 2 ∧
      ((clampedSlice sliceData 2 20).getD []).get? 0 = sliceData.get? 2 ∧
      ((clampedSlice sliceData 2 20).getD []).get? 7 = sliceData.get? 9 :=
  ⟨(clamped_slice_spec sliceData 2 20 (by decide)).1,
   (clamped_slice_spec sliceData 2 20 (by decide)).2.1,
   (clamped_slice_spec sliceData 2 20 (by decide)).2.2 0 (by decide),
   (clamped_slice_spec sliceData 2 20 (by decide)).2.2 7 (by decide)⟩

/-! ### Ownership and drop order (memory_safe.rs, lines 9-74)

`DataHolder` prints a creation line in `new` and a "Destroyed DataHolder"
line in `Drop::drop`.  The ownership discipline is modelled by an
interpreter over straight-line bodies: a `construct` declares a new binding
owning a fresh value; a `move` transfers the value from its current binding
to a newly declared binding (the old binding becomes vacant and is not
dropped).  At scope exit the bindings are dropped in reverse declaration
order; a binding drops the value it currently owns, if any. -/

structure OwnState where
  binds : List (String × Option Nat)
  vals : List String
deriving DecidableEq

inductive OwnOp where
  | construct (b v : String)
  | move (src dst : String)
deriving DecidableEq

def applyOp (st : OwnState) : OwnOp → Option OwnState
  | .construct b v =>
    some ⟨st.binds ++ [(b, some st.vals.length)], st.vals ++ [v]⟩
  | .move src dst =>
    match st.binds.find? fun p => p.1 == src with
    | some (_, some i) =>
      some ⟨(st.binds.map fun p => if p.1 = src then (p.1, none) else p)
        ++ [(dst, some i)], st.vals⟩
    | _ => none

def runOwnFrom : List OwnOp → OwnState → Option OwnState
  | [], st => some st
  | op :: ops, st =>
    match applyOp st op with
    | some st2 => runOwnFrom ops st2
    | none => none

def runOwn (ops : List OwnOp) : Option OwnState := runOwnFrom ops ⟨[], []⟩

/-- The destruction narration emitted at scope exit: bindings are visited
in reverse declaration order and each currently-owned value is dropped. -/
def dropSeq (st : OwnState) : List String :=
  st.binds.reverse.filterMap fun p => p.2.map fun i => st.vals.getD i ""

def isConstruct : OwnOp → Bool
  | .construct _ _ => true
  | .move _ _ => false

/-- The body of `demonstrate_ownership_safety`: construct `data` (holding
"safe"), then move it into `moved_data`. -/
def ownershipOps : List OwnOp :=
  [.construct "data" "safe", .move "data" "moved_data"]

/-- The owning bindings of `demonstrate_borrowing_safety`: `data` (holding
"borrowed"), then `mutable_data` (holding "mutable"); the inner block only
takes a reference and owns nothing. -/
def borrowingOps : List OwnOp :=
  [.construct "data" "borrowed", .construct "mutable_data" "mutable"]

theorem range_map_getD (l : List String) :
    (List.range l.length).map (fun i => l.getD i "") = l := by
  induction l with
  | nil => simp
  | cons x xs ih =>
      rw [List.length_cons, List.range_succ_eq_map, List.map_cons,
        List.map_map]
      have h : ((fun i => (x :: xs).getD i "") ∘ Nat.succ) =
          fun i => xs.getD i "" := by
        funext i
        simp [List.getD_cons_succ]
      rw [List.getD_cons_zero, h, ih]

theorem construct_inv (ops : List OwnOp) :
    ∀ st0 st : OwnState, (∀ op ∈ ops, isConstruct op = true) →
      runOwnFrom ops st0 = some st →
      st0.binds.map Prod.snd = (List.range st0.vals.length).map some →
      st.binds.map Prod.snd = (List.range st.vals.length).map some := by
  induction ops with
  | nil =>
      intro st0 st _ h hi
      simp only [runOwnFrom, Option.some.injEq] at h
      exact h ▸ hi
  | cons op ops ih =>
      intro st0 st hall h hi
      cases op with
      | construct b v =>
          simp only [runOwnFrom, applyOp] at h
          apply ih _ st (fun o ho => hall o (List.mem_cons_of_mem _ ho)) h
          simp only [List.map_append, List.length_append]
          rw [hi]
          simp [List.range_succ]
      | move src dst =>
          exact absurd (hall _ (List.mem_cons_self _ _))
            (by simp [isConstruct])

theorem dropSeq_of_inv (st : OwnState)
    (hinv : st.binds.map Prod.snd = (List.range st.vals.length).map some) :
    dropSeq st = st.vals.reverse := by
  unfold dropSeq
  rw [show (fun (p : String × Option Nat) =>
        p.2.map fun i => st.vals.getD i "")
      = ((fun o : Option Nat => o.map fun i => st.vals.getD i "")
          ∘ Prod.snd) from rfl]
  rw [← List.filterMap_map, List.map_reverse, hinv]
  rw [← List.map_reverse, List.filterMap_map]
  rw [show ((fun o : Option Nat => o.map fun i => st.vals.getD i "")
        ∘ some) = (some ∘ fun i => st.vals.getD i "") from rfl]
  rw [List.filterMap_eq_map, List.map_reverse, range_map_getD]

/-- Claim C8: in the embedded demonstration bodies, destruction narration
fires exactly once per constructed value, at the exit of the owning scope,
in reverse order of construction for values destroyed at the same exit:
for any straight-line body of constructions the drop sequence is the
reverse of the construction sequence; in `demonstrate_ownership_safety`
the moved value "safe" is dropped exactly once (the moved-from binding
drops nothing); and in `demonstrate_borrowing_safety` the two values
constructed in order ["borrowed", "mutable"] drop as
["mutable", "borrowed"]. -/
theorem drop_discipline :
    (∀ (ops : List OwnOp) (st : OwnState),
        (∀ op ∈ ops, isConstruct op = true) →
        runOwn ops = some st → dropSeq st = st.vals.reverse) ∧
      runOwn ownershipOps =
        some ⟨[("data", none), ("moved_data", some 0)], ["safe"]⟩ ∧
      dropSeq ⟨[("data", none), ("moved_data", some 0)], ["safe"]⟩ =
        ["safe"] ∧
      (dropSeq ⟨[("data", none), ("moved_data", some 0)],
        ["safe"]⟩).count "safe" = 1 ∧
      runOwn borrowingOps =
        some ⟨[("data", some 0), ("mutable_data", some 1)],
          ["borrowed", "mutable"]⟩ ∧
      dropSeq ⟨[("data", some 0), ("mutable_data", some 1)],
        ["borrowed", "mutable"]⟩ = ["mutable", "borrowed"] := by
  refine ⟨?_, by decide, by decide, by decide, by decide, by decide⟩
  intro ops st hall h
  exact dropSeq_of_inv st (construct_inv ops ⟨[], []⟩ st hall h (by simp))

/-- Claim C8, witness: applying the reverse-order theorem to the concrete
construct-only body of `demonstrate_borrowing_safety`. -/
theorem drop_discipline_witness :
    dropSeq ⟨[("data", some 0), ("mutable_data", some 1)],
        ["borrowed", "mutable"]⟩ =
      (["borrowed", "mutable"] : List String).reverse :=
  drop_discipline.1 borrowingOps
    ⟨[("data", some 0), ("mutable_data", some 1)], ["borrowed", "mutable"]⟩
    (by decide) (by decide)

/-! ### The assertion in `demonstrate_counter_safety` and `main`
(thread_safe.rs, lines 95-103 and 347-358)

`assert_eq!(actual, expected, "Counter should be exact with atomic
operations")` panics (terminating the process with a nonzero status and a
diagnostic) when the values differ, so none of the demonstrations that
`main` calls afterwards runs; when they are equal, `main` continues through
the remaining demonstrations and exits with status 0. -/

def expectedTotal : Int := 10 * 1000

def counterDemo (actual : Int) : Except String Unit :=
  if actual = expectedTotal then
    .ok ()
  else
    .error "Counter should be exact with atomic operations"

def laterDemos : List String :=
  ["demonstrate_mutex_safety", "demonstrate_rwlock_safety",
   "demonstrate_send_sync_traits", "demonstrate_channel_safety",
   "demonstrate_scoped_threads", "demonstrate_atomic_operations",
   "demonstrate_compile_time_safety"]

def mainRun (actual : Int) : Except String (List String) :=
  match counterDemo actual with
  | .ok _ => .ok laterDemos
  | .error e => .error e

def exitCode : Except String (List String) → Nat
  | .ok _ => 0
  | .error _ => 101

/-- Claim C9: if the final counter value differs from the expected product,
the program terminates at the assertion with its diagnostic — none of the
later demonstrations runs and the exit status is the panic status; if it is
equal, all later demonstrations run and the exit status reports that the
consistency check held; and the counter of the concrete run does reach the
expected 10000. -/
theorem assert_terminates :
    ∀ a : Int,
      (a ≠ expectedTotal →
        mainRun a = .error "Counter should be exact with atomic operations" ∧
          exitCode (mainRun a) = 101) ∧
        (a = expectedTotal →
          mainRun a = .ok laterDemos ∧ exitCode (mainRun a) = 0) ∧
        (runSchedule SafeCounter.new (workList 10 1000)).get_count =
          expectedTotal := by
  intro a
  refine ⟨?_, ?_, ?_⟩
  · intro h
    simp [mainRun, counterDemo, h, exitCode]
  · intro h
    simp [mainRun, counterDemo, h, exitCode]
  · rw [runSchedule_new, length_workList]
    norm_num [wrap32, expectedTotal]

/-- Claim C9, witness: a mismatched value (9999) stops the run with the
assertion diagnostic, and the matched value (10000) lets every later
demonstration run with exit status 0. -/
theorem assert_terminates_witness :
    (mainRun 9999 =
        .error "Counter should be exact with atomic operations" ∧
      exitCode (mainRun 9999) = 101) ∧
      (mainRun 10000 = .ok laterDemos ∧ exitCode (mainRun 10000) = 0) :=
  ⟨(assert_terminates 9999).1 (by norm_num [expectedTotal]),
   (assert_terminates 10000).2.1 (by norm_num [expectedTotal])⟩
